import Mathlib

/-!
Shallow embedding, in Lean 4, of the poll-driven stream-combinator layer of
the `futures-rs` repository (crates `futures` and `futures-util`, module
`stream`), together with proofs of the functional properties stated in the
repository's specification.

The module `src/futures-util/src/stream/mod.rs` of the repository contains the
declarations and re-exports of the combinators (`FuturesUnordered`,
`FuturesOrdered`, `Buffered`/`BufferUnordered`, `Abortable`, `Fuse`,
`select_with_strategy`) and one concrete function, `assert_stream`.  The
bodies of the combinators themselves are not part of the given sources, so
every definition below that embeds one of them is modelled from the
specification's description of that combinator and is marked as such in its
doc comment.  `assert_stream` is embedded directly from the source.
-/

namespace FuturesRs

/-- The result of one poll of a pollable unit: either a suspension signal or a
final/next value (`Poll::Pending` / `Poll::Ready` in the source language). -/
inductive Poll (α : Type) where
  | pending : Poll α
  | ready (a : α) : Poll α
deriving DecidableEq, Repr

/-- A deterministic model of a single pollable unit (a future): it reports
`pending` for `latency` polls, re-arming via its wake token each time, and
then yields `value`. -/
structure MockFuture (α : Type) where
  latency : Nat
  value : α
deriving DecidableEq, Repr

/-- One poll of a `MockFuture`: ready when the latency is exhausted,
otherwise pending with one unit of latency consumed. -/
def MockFuture.poll {α : Type} (u : MockFuture α) : MockFuture α × Poll α :=
  if u.latency = 0 then (u, .ready u.value)
  else (⟨u.latency - 1, u.value⟩, .pending)

/-- Modelled from the spec: the state of `FuturesUnordered` (the Unordered
Task Set), whose implementation is missing from the given sources.  Per the
spec's data model it owns an arena of slots (`none` = vacant), a FIFO queue
of ready slot indices, and remembers whether the external caller's wake
handle has been registered by a `Pending` return of `poll_next`. -/
structure FuturesUnordered (α : Type) where
  slots : List (Option (MockFuture α))
  readyQueue : List Nat
  wakerRegistered : Bool
deriving DecidableEq, Repr

/-- The empty Unordered Task Set. -/
def FuturesUnordered.empty {α : Type} : FuturesUnordered α := ⟨[], [], false⟩

/-- An arena slot is occupied when it holds a live unit. -/
def slotOccupied {α : Type} (slots : List (Option (MockFuture α))) (i : Nat) : Bool :=
  match slots.get? i with
  | some (some _) => true
  | _ => false

/-- A slot index of the set is occupied when it holds a live unit. -/
def FuturesUnordered.isOccupied {α : Type} (s : FuturesUnordered α) (i : Nat) : Bool :=
  slotOccupied s.slots i

/-- Number of occupied slots (the size of the set). -/
def FuturesUnordered.occupiedCount {α : Type} (s : FuturesUnordered α) : Nat :=
  (s.slots.filter (fun o => o.isSome)).length

/-- Modelled from the spec: `insert` assigns a fresh stable index, stores the
unit in the arena and queues it for an initial poll.  Returns the index as
the removal handle. -/
def FuturesUnordered.insert {α : Type} (s : FuturesUnordered α) (u : MockFuture α) :
    FuturesUnordered α × Nat :=
  (⟨s.slots ++ [some u], s.readyQueue ++ [s.slots.length], s.wakerRegistered⟩, s.slots.length)

/-- Modelled from the spec: removing a unit vacates its slot (tombstoning)
and purges its index from the ready queue, so that every queued index keeps
referring to an occupied slot. -/
def FuturesUnordered.remove {α : Type} (s : FuturesUnordered α) (i : Nat) :
    FuturesUnordered α :=
  ⟨s.slots.set i none, s.readyQueue.filter (fun j => j ≠ i), s.wakerRegistered⟩

/-- Modelled from the spec: firing the wake token of slot `i` re-queues the
slot for polling.  Firing a token whose slot has been removed, or one that is
already queued (already fired, not yet polled), is a no-op — no
double-delivery, no error. -/
def FuturesUnordered.fire {α : Type} (s : FuturesUnordered α) (i : Nat) :
    FuturesUnordered α :=
  if s.isOccupied i then
    if i ∈ s.readyQueue then s
    else ⟨s.slots, s.readyQueue ++ [i], s.wakerRegistered⟩
  else s

/-- Outcome of draining the ready queue once: the updated arena, the part of
the queue that was not consumed, the index/value pair produced (if a member
completed), and the indices whose units were actually polled. -/
structure DrainResult (α : Type) where
  slots : List (Option (MockFuture α))
  readyQueue : List Nat
  result : Option (Nat × α)
  polled : List Nat
deriving DecidableEq, Repr

/-- Modelled from the spec: the ready-queue drain inside `poll_next`.  Each
queued index is popped in FIFO order; a stale index (vacant slot) is ignored,
a pending unit is re-polled and stays in its slot without being re-queued,
and a completed unit vacates its slot and its value is returned immediately,
leaving the rest of the queue for the next poll. -/
def drainReady {α : Type} (slots : List (Option (MockFuture α))) :
    List Nat → DrainResult α
  | [] => ⟨slots, [], none, []⟩
  | i :: rest =>
    match slots.get? i with
    | some (some u) =>
      if u.latency = 0 then
        ⟨slots.set i none, rest, some (i, u.value), [i]⟩
      else
        let r := drainReady (slots.set i (some ⟨u.latency - 1, u.value⟩)) rest
        ⟨r.slots, r.readyQueue, r.result, i :: r.polled⟩
    | _ => drainReady slots rest

/-- Modelled from the spec: `FuturesUnordered::poll_next`.  Drains the ready
queue; if a member completed its value is returned; otherwise `Ready(None)`
when the set is empty, and `Pending` — with the caller's wake handle
registered — when the set still has live members. -/
def FuturesUnordered.pollNext {α : Type} (s : FuturesUnordered α) :
    FuturesUnordered α × Poll (Option α) :=
  let r := drainReady s.slots s.readyQueue
  match r.result with
  | some (_, v) => (⟨r.slots, r.readyQueue, s.wakerRegistered⟩, .ready (some v))
  | none =>
    if r.slots.all (fun o => o.isNone) then
      (⟨r.slots, r.readyQueue, s.wakerRegistered⟩, .ready none)
    else
      (⟨r.slots, r.readyQueue, true⟩, .pending)

/-- The set is empty exactly when every slot is vacant. -/
lemma occupiedCount_eq_zero {α : Type} (s : FuturesUnordered α) :
    s.occupiedCount = 0 ↔ s.slots.all (fun o => o.isNone) = true := by
  unfold FuturesUnordered.occupiedCount
  rw [List.length_eq_zero, List.filter_eq_nil_iff, List.all_eq_true]
  constructor
  · intro h o ho
    cases o with
    | none => rfl
    | some u => exact absurd rfl (h _ ho)
  · intro h o ho hs
    cases o with
    | none => exact Bool.noConfusion hs
    | some u => exact Bool.noConfusion (h _ ho)

/-- Draining a fully-vacant arena consumes the whole queue, polls nothing and
produces nothing. -/
lemma drainReady_of_allNone {α : Type} {slots : List (Option (MockFuture α))}
    (h : slots.all (fun o => o.isNone) = true) :
    ∀ l, drainReady slots l = ⟨slots, [], none, []⟩ := by
  intro l
  induction l with
  | nil => rfl
  | cons i rest ih =>
    have hno : ∀ u : MockFuture α, slots.get? i ≠ some (some u) := by
      intro u hu
      have hmem : (some u : Option (MockFuture α)) ∈ slots := List.get?_mem hu
      have := List.all_eq_true.mp h _ hmem
      simp at this
    unfold drainReady
    cases hg : slots.get? i with
    | none => simpa [hg] using ih
    | some o =>
      cases o with
      | none => simpa [hg] using ih
      | some u => exact absurd hg (hno u)

/-- C1: `poll_next` on an Unordered Task Set returns `Ready(None)` when the
set is empty; when the set is non-empty and the ready queue is empty it
returns `Pending` after registering the caller's wake handle. -/
theorem futuresUnordered_pollNext_empty_or_pending {α : Type} (s : FuturesUnordered α) :
    (s.occupiedCount = 0 → (s.pollNext).2 = Poll.ready none) ∧
    (s.occupiedCount ≠ 0 → s.readyQueue = [] →
      (s.pollNext).2 = Poll.pending ∧ (s.pollNext).1.wakerRegistered = true) := by
  constructor
  · intro h0
    have hall := (occupiedCount_eq_zero s).mp h0
    simp [FuturesUnordered.pollNext, drainReady_of_allNone hall, hall]
  · intro h0 hq
    have hall : ¬ (s.slots.all (fun o => o.isNone) = true) := by
      intro hall
      exact h0 ((occupiedCount_eq_zero s).mpr hall)
    simp [FuturesUnordered.pollNext, hq, drainReady, hall]

/-- C1 witness: the empty set answers `Ready(None)`; a one-member set with an
empty ready queue answers `Pending` with the caller's waker registered. -/
theorem futuresUnordered_pollNext_empty_or_pending_witness :
    (FuturesUnordered.pollNext (FuturesUnordered.empty (α := Nat))).2 = Poll.ready none ∧
    ((FuturesUnordered.pollNext (⟨[some ⟨1, 5⟩], [], false⟩ : FuturesUnordered Nat)).2 =
        Poll.pending ∧
      (FuturesUnordered.pollNext (⟨[some ⟨1, 5⟩], [], false⟩ : FuturesUnordered Nat)).1.wakerRegistered =
        true) :=
  ⟨(futuresUnordered_pollNext_empty_or_pending FuturesUnordered.empty).1 (by decide),
    (futuresUnordered_pollNext_empty_or_pending _).2 (by decide) rfl⟩

lemma slotOccupied_iff {α : Type} {slots : List (Option (MockFuture α))} {i : Nat} :
    slotOccupied slots i = true ↔ ∃ u, slots.get? i = some (some u) := by
  unfold slotOccupied
  cases hg : slots.get? i with
  | none => simp
  | some o => cases o <;> simp

lemma slotOccupied_lt {α : Type} {slots : List (Option (MockFuture α))} {i : Nat}
    (h : slotOccupied slots i = true) : i < slots.length := by
  obtain ⟨u, hu⟩ := slotOccupied_iff.mp h
  by_contra hlt
  push_neg at hlt
  rw [List.get?_eq_none.mpr hlt] at hu
  exact Option.noConfusion hu

lemma slotOccupied_set_ne {α : Type} {slots : List (Option (MockFuture α))}
    (i : Nat) (x : Option (MockFuture α)) {j : Nat} (h : j ≠ i) :
    slotOccupied (slots.set i x) j = slotOccupied slots j := by
  unfold slotOccupied
  rw [List.get?_set_ne _ _ (fun he => h he.symm)]

lemma slotOccupied_append {α : Type} {slots : List (Option (MockFuture α))}
    (l : List (Option (MockFuture α))) {i : Nat} (h : i < slots.length) :
    slotOccupied (slots ++ l) i = slotOccupied slots i := by
  unfold slotOccupied
  rw [List.get?_append h]

/-- Well-formedness of an Unordered Task Set: the ready queue holds no
duplicate indices, and every queued index refers to an occupied slot. -/
def FuturesUnordered.Inv {α : Type} (s : FuturesUnordered α) : Prop :=
  s.readyQueue.Nodup ∧ ∀ i ∈ s.readyQueue, s.isOccupied i = true

/-- States reachable from the empty set by any interleaving of insertions,
removals, wake firings and polls. -/
inductive Reach {α : Type} : FuturesUnordered α → Prop where
  | init : Reach FuturesUnordered.empty
  | insert {s : FuturesUnordered α} (u : MockFuture α) :
      Reach s → Reach (s.insert u).1
  | remove {s : FuturesUnordered α} (i : Nat) : Reach s → Reach (s.remove i)
  | fire {s : FuturesUnordered α} (i : Nat) : Reach s → Reach (s.fire i)
  | poll {s : FuturesUnordered α} : Reach s → Reach (s.pollNext).1

lemma drainReady_nil {α : Type} (slots : List (Option (MockFuture α))) :
    drainReady slots [] = ⟨slots, [], none, []⟩ := rfl

lemma drainReady_cons_vacant {α : Type} {slots : List (Option (MockFuture α))}
    {i : Nat} (rest : List Nat) (h : slotOccupied slots i = false) :
    drainReady slots (i :: rest) = drainReady slots rest := by
  conv_lhs => unfold drainReady
  unfold slotOccupied at h
  cases hg : slots.get? i with
  | none => simp [hg]
  | some o =>
    cases o with
    | none => simp [hg]
    | some u => rw [hg] at h; exact Bool.noConfusion h

lemma drainReady_cons_ready {α : Type} {slots : List (Option (MockFuture α))}
    {i : Nat} {u : MockFuture α} (rest : List Nat)
    (hu : slots.get? i = some (some u)) (hl : u.latency = 0) :
    drainReady slots (i :: rest) = ⟨slots.set i none, rest, some (i, u.value), [i]⟩ := by
  conv_lhs => unfold drainReady
  rw [List.get?_eq_getElem?] at hu
  simp [hu, hl]

lemma drainReady_cons_pending {α : Type} {slots : List (Option (MockFuture α))}
    {i : Nat} {u : MockFuture α} (rest : List Nat)
    (hu : slots.get? i = some (some u)) (hl : ¬ u.latency = 0) :
    drainReady slots (i :: rest) =
      { slots := (drainReady (slots.set i (some ⟨u.latency - 1, u.value⟩)) rest).slots,
        readyQueue := (drainReady (slots.set i (some ⟨u.latency - 1, u.value⟩)) rest).readyQueue,
        result := (drainReady (slots.set i (some ⟨u.latency - 1, u.value⟩)) rest).result,
        polled := i :: (drainReady (slots.set i (some ⟨u.latency - 1, u.value⟩)) rest).polled } := by
  conv_lhs => unfold drainReady
  rw [List.get?_eq_getElem?] at hu
  simp [hu, hl]

/-- Core drain lemma: under the queue invariant, one drain pass leaves a
suffix of the queue, keeps every left-over queued index occupied, and only
ever produces a value taken from a slot that was occupied when the pass
began. -/
lemma drainReady_inv {α : Type} :
    ∀ (l : List Nat) (slots : List (Option (MockFuture α))),
      l.Nodup → (∀ i ∈ l, slotOccupied slots i = true) →
      (∃ consumed, l = consumed ++ (drainReady slots l).readyQueue) ∧
      (∀ j ∈ (drainReady slots l).readyQueue,
        slotOccupied (drainReady slots l).slots j = true) ∧
      (∀ i v, (drainReady slots l).result = some (i, v) →
        slotOccupied slots i = true) := by
  intro l
  induction l with
  | nil =>
    intro slots _ _
    exact ⟨⟨[], rfl⟩, by simp [drainReady], by simp [drainReady]⟩
  | cons i rest ih =>
    intro slots hnd hocc
    have hi : slotOccupied slots i = true := hocc i (by simp)
    obtain ⟨u, hu⟩ := slotOccupied_iff.mp hi
    have hnotin : i ∉ rest := (List.nodup_cons.mp hnd).1
    have hndr : rest.Nodup := (List.nodup_cons.mp hnd).2
    by_cases hl : u.latency = 0
    · have hd := drainReady_cons_ready rest hu hl
      refine ⟨⟨[i], by simp [hd]⟩, ?_, ?_⟩
      · intro j hj
        rw [hd] at hj ⊢
        have hji : j ≠ i := fun he => hnotin (he ▸ hj)
        rw [slotOccupied_set_ne i none hji]
        exact hocc j (by simp [hj])
      · intro i' v h
        rw [hd] at h
        simp only [Option.some.injEq, Prod.mk.injEq] at h
        exact h.1 ▸ hi
    · have hd := drainReady_cons_pending rest hu hl
      have hocc' : ∀ j ∈ rest,
          slotOccupied (slots.set i (some ⟨u.latency - 1, u.value⟩)) j = true := by
        intro j hj
        have hji : j ≠ i := fun he => hnotin (he ▸ hj)
        rw [slotOccupied_set_ne _ _ hji]
        exact hocc j (by simp [hj])
      obtain ⟨⟨consumed, hc⟩, hq, hr⟩ :=
        ih (slots.set i (some ⟨u.latency - 1, u.value⟩)) hndr hocc'
      refine ⟨⟨i :: consumed, by rw [hd]; simpa using hc⟩, ?_, ?_⟩
      · intro j hj
        rw [hd] at hj ⊢
        exact hq j hj
      · intro i' v h
        rw [hd] at h
        have hocc2 := hr i' v h
        by_cases hii : i' = i
        · exact hii ▸ hi
        · rw [slotOccupied_set_ne _ _ hii] at hocc2
          exact hocc2

/-- The state produced by `poll_next` carries the arena and left-over queue
of the drain pass, whatever the poll's outcome. -/
lemma pollNext_components {α : Type} (s : FuturesUnordered α) :
    (s.pollNext).1.slots = (drainReady s.slots s.readyQueue).slots ∧
    (s.pollNext).1.readyQueue = (drainReady s.slots s.readyQueue).readyQueue := by
  unfold FuturesUnordered.pollNext
  rcases h : (drainReady s.slots s.readyQueue).result with _ | ⟨i, v⟩
  · simp only [h]
    split <;> simp
  · simp [h]

lemma inv_insert {α : Type} {s : FuturesUnordered α} (u : MockFuture α)
    (h : s.Inv) : ((s.insert u).1).Inv := by
  obtain ⟨hnd, hocc⟩ := h
  have hlt : ∀ i ∈ s.readyQueue, i < s.slots.length := fun i hi =>
    slotOccupied_lt (hocc i hi)
  constructor
  · show (s.readyQueue ++ [s.slots.length]).Nodup
    rw [List.nodup_append]
    refine ⟨hnd, List.nodup_singleton _, ?_⟩
    intro a ha hb
    have hb' : a = s.slots.length := by simpa using hb
    exact absurd (hlt a ha) (by simp [hb'])
  · intro i hi
    have hi' : i ∈ s.readyQueue ++ [s.slots.length] := hi
    show slotOccupied (s.slots ++ [some u]) i = true
    clear hi
    rename' hi' => hi
    simp only [List.mem_append, List.mem_singleton] at hi
    cases hi with
    | inl hi =>
      rw [slotOccupied_append _ (hlt i hi)]
      exact hocc i hi
    | inr hi =>
      subst hi
      unfold slotOccupied
      rw [List.get?_concat_length]

lemma inv_remove {α : Type} {s : FuturesUnordered α} (i : Nat)
    (h : s.Inv) : ((s.remove i)).Inv := by
  obtain ⟨hnd, hocc⟩ := h
  constructor
  · exact hnd.filter _
  · intro j hj
    unfold FuturesUnordered.remove at hj ⊢
    simp only [List.mem_filter, decide_eq_true_eq] at hj
    unfold FuturesUnordered.isOccupied
    rw [slotOccupied_set_ne i none hj.2]
    exact hocc j hj.1

lemma inv_fire {α : Type} {s : FuturesUnordered α} (i : Nat)
    (h : s.Inv) : ((s.fire i)).Inv := by
  obtain ⟨hnd, hocc⟩ := h
  unfold FuturesUnordered.fire
  by_cases ho : s.isOccupied i = true
  · by_cases hm : i ∈ s.readyQueue
    · simp only [ho, hm, if_true]
      exact ⟨hnd, hocc⟩
    · simp only [ho, hm, if_true, if_false]
      constructor
      · rw [List.nodup_append]
        refine ⟨hnd, List.nodup_singleton _, ?_⟩
        intro a ha hb
        have hb' : a = i := by simpa using hb
        exact hm (hb' ▸ ha)
      · intro j hj
        simp only [List.mem_append, List.mem_singleton] at hj
        cases hj with
        | inl hj => exact hocc j hj
        | inr hj => exact hj ▸ ho
  · simp only [ho, if_false]
    exact ⟨hnd, hocc⟩

lemma inv_pollNext {α : Type} {s : FuturesUnordered α}
    (h : s.Inv) : ((s.pollNext).1).Inv := by
  obtain ⟨hnd, hocc⟩ := h
  obtain ⟨⟨consumed, hc⟩, hq, -⟩ := drainReady_inv s.readyQueue s.slots hnd hocc
  obtain ⟨hs1, hs2⟩ := pollNext_components s
  constructor
  · rw [hs2]
    exact (List.sublist_append_right consumed _).nodup (hc ▸ hnd)
  · intro j hj
    rw [hs2] at hj
    unfold FuturesUnordered.isOccupied
    rw [hs1]
    exact hq j hj

/-- Every reachable Unordered Task Set satisfies the queue invariant. -/
lemma reach_inv {α : Type} {s : FuturesUnordered α} (h : Reach s) : s.Inv := by
  induction h with
  | init => exact ⟨List.nodup_nil, by intro i hi; exact absurd hi (List.not_mem_nil i)⟩
  | insert u _ ih => exact inv_insert u ih
  | remove i _ ih => exact inv_remove i ih
  | fire i _ ih => exact inv_fire i ih
  | poll _ ih => exact inv_pollNext ih

/-- C7: in every reachable state of an Unordered Task Set, each index in the
ready queue refers to an occupied slot, any value produced by the drain pass
comes from a slot that was occupied (never from a removed index), and a stale
wake for a vacant slot is ignored outright. -/
theorem futuresUnordered_readyQueue_occupied {α : Type} (s : FuturesUnordered α)
    (h : Reach s) :
    (∀ i ∈ s.readyQueue, s.isOccupied i = true) ∧
    (∀ i v, (drainReady s.slots s.readyQueue).result = some (i, v) →
      s.isOccupied i = true) ∧
    (∀ i, s.isOccupied i = false → s.fire i = s) := by
  obtain ⟨hnd, hocc⟩ := reach_inv h
  refine ⟨hocc, ?_, ?_⟩
  · intro i v hres
    exact (drainReady_inv s.readyQueue s.slots hnd hocc).2.2 i v hres
  · intro i hio
    unfold FuturesUnordered.fire
    simp [hio]

/-- C7 witness: a freshly inserted unit occupies the slot its queued index
points at, in a state reached by one insertion. -/
theorem futuresUnordered_readyQueue_occupied_witness :
    (((FuturesUnordered.empty (α := Nat)).insert ⟨1, 42⟩).1).isOccupied 0 = true :=
  (futuresUnordered_readyQueue_occupied _ (Reach.insert _ Reach.init)).1 0 (by decide)

/-- Indices whose units get polled during the next `n` calls to `poll_next`. -/
def FuturesUnordered.pollsDone {α : Type} (s : FuturesUnordered α) : Nat → List Nat
  | 0 => []
  | n + 1 =>
    (drainReady s.slots s.readyQueue).polled ++ FuturesUnordered.pollsDone (s.pollNext).1 n

/-- Splitting a list at the first occurrence of a member. -/
lemma exists_first_split {α : Type} {a : α} :
    ∀ {l : List α}, a ∈ l → ∃ l₁ l₂, l = l₁ ++ a :: l₂ ∧ a ∉ l₁ := by
  intro l h
  induction l with
  | nil => cases h
  | cons b t ih =>
    by_cases hb : a = b
    · exact ⟨[], t, by rw [hb]; rfl, by simp⟩
    · have ht : a ∈ t := by
        rcases List.mem_cons.mp h with h' | h'
        · exact absurd h' hb
        · exact h'
      obtain ⟨l₁, l₂, he, hn⟩ := ih ht
      exact ⟨b :: l₁, l₂, by rw [List.cons_append, he], by simp [hn, hb]⟩

/-- Progress of one drain pass towards a queued occupied index `i`: either the
pass polls `i`, or it stops early and `i` survives in the left-over queue,
strictly closer to the front, with its slot untouched. -/
lemma drainReady_progress {α : Type} :
    ∀ (l₁ : List Nat) (slots : List (Option (MockFuture α))) (l₂ : List Nat) (i : Nat),
      i ∉ l₁ → slotOccupied slots i = true →
      i ∈ (drainReady slots (l₁ ++ i :: l₂)).polled ∨
      (∃ l₁', (drainReady slots (l₁ ++ i :: l₂)).readyQueue = l₁' ++ i :: l₂ ∧
        i ∉ l₁' ∧ l₁'.length < l₁.length ∧
        slotOccupied (drainReady slots (l₁ ++ i :: l₂)).slots i = true) := by
  intro l₁
  induction l₁ with
  | nil =>
    intro slots l₂ i _ hocc
    obtain ⟨u, hu⟩ := slotOccupied_iff.mp hocc
    by_cases hl : u.latency = 0
    · left
      rw [List.nil_append, drainReady_cons_ready l₂ hu hl]
      simp
    · left
      rw [List.nil_append, drainReady_cons_pending l₂ hu hl]
      simp
  | cons j t ih =>
    intro slots l₂ i hni hocc
    have hji : i ≠ j := fun he => hni (by simp [he])
    have hnt : i ∉ t := fun ht => hni (by simp [ht])
    rw [List.cons_append]
    by_cases hoj : slotOccupied slots j = true
    · obtain ⟨u, hu⟩ := slotOccupied_iff.mp hoj
      by_cases hl : u.latency = 0
      · right
        rw [drainReady_cons_ready (t ++ i :: l₂) hu hl]
        refine ⟨t, rfl, hnt, by simp, ?_⟩
        show slotOccupied (slots.set j none) i = true
        rw [slotOccupied_set_ne j none hji]
        exact hocc
      · rw [drainReady_cons_pending (t ++ i :: l₂) hu hl]
        have hocc' : slotOccupied (slots.set j (some ⟨u.latency - 1, u.value⟩)) i = true := by
          rw [slotOccupied_set_ne _ _ hji]; exact hocc
        rcases ih (slots.set j (some ⟨u.latency - 1, u.value⟩)) l₂ i hnt hocc' with hL | ⟨l₁', h1, h2, h3, h4⟩
        · left
          simp only [List.mem_cons]
          exact Or.inr hL
        · right
          exact ⟨l₁', h1, h2, Nat.lt_succ_of_lt h3, h4⟩
    · have hoj' : slotOccupied slots j = false := by
        cases hf : slotOccupied slots j
        · rfl
        · exact absurd hf hoj
      rw [drainReady_cons_vacant (t ++ i :: l₂) hoj']
      rcases ih slots l₂ i hnt hocc with hL | ⟨l₁', h1, h2, h3, h4⟩
      · exact Or.inl hL
      · exact Or.inr ⟨l₁', h1, h2, Nat.lt_succ_of_lt h3, h4⟩

/-- A queued occupied index is polled within finitely many `poll_next` calls. -/
lemma pollsDone_eventually {α : Type} :
    ∀ (n : Nat) (l₁ : List Nat), l₁.length ≤ n →
    ∀ (s : FuturesUnordered α) (l₂ : List Nat) (i : Nat),
      s.readyQueue = l₁ ++ i :: l₂ → i ∉ l₁ → s.isOccupied i = true →
      ∃ m, 1 ≤ m ∧ i ∈ s.pollsDone m := by
  intro n
  induction n with
  | zero =>
    intro l₁ hlen s l₂ i hq hni hocc
    rcases drainReady_progress l₁ s.slots l₂ i hni hocc with hL | ⟨l₁', _, _, h3, _⟩
    · refine ⟨1, le_refl 1, ?_⟩
      unfold FuturesUnordered.pollsDone
      rw [hq]
      simp [hL]
    · exact absurd (Nat.lt_of_lt_of_le h3 hlen) (Nat.not_lt_zero _)
  | succ n ih =>
    intro l₁ hlen s l₂ i hq hni hocc
    rcases drainReady_progress l₁ s.slots l₂ i hni hocc with hL | ⟨l₁', h1, h2, h3, h4⟩
    · refine ⟨1, le_refl 1, ?_⟩
      unfold FuturesUnordered.pollsDone
      rw [hq]
      simp [hL]
    · obtain ⟨hs1, hs2⟩ := pollNext_components s
      have hq' : (s.pollNext).1.readyQueue = l₁' ++ i :: l₂ := by
        rw [hs2, hq]; exact h1
      have hocc' : (s.pollNext).1.isOccupied i = true := by
        unfold FuturesUnordered.isOccupied
        rw [hs1, hq]
        exact h4
      obtain ⟨m, hm1, hmem⟩ :=
        ih l₁' (Nat.le_of_lt_succ (Nat.lt_of_lt_of_le h3 hlen)) (s.pollNext).1 l₂ i hq' h2 hocc'
      refine ⟨m + 1, Nat.le_add_left 1 m, ?_⟩
      unfold FuturesUnordered.pollsDone
      cases m with
      | zero => exact absurd hm1 (by simp)
      | succ k =>
        simp only [List.mem_append]
        exact Or.inr hmem

/-- Firing a wake never changes the arena. -/
lemma fire_slots {α : Type} (s : FuturesUnordered α) (i : Nat) :
    (s.fire i).slots = s.slots := by
  unfold FuturesUnordered.fire
  split
  · split <;> rfl
  · rfl

/-- C9: firing the wake token of a live member — at any time, any number of
times — is safe: repeated firing is absorbed (no double delivery), the member
is queued, and it is guaranteed to be polled again within finitely many
subsequent `poll_next` calls (at-least-once delivery). -/
theorem futuresUnordered_fire_wakes {α : Type} (s : FuturesUnordered α) (i : Nat)
    (h : s.isOccupied i = true) :
    (s.fire i).fire i = s.fire i ∧
    i ∈ (s.fire i).readyQueue ∧
    ∃ m, 1 ≤ m ∧ i ∈ (s.fire i).pollsDone m := by
  have hocc' : (s.fire i).isOccupied i = true := by
    unfold FuturesUnordered.isOccupied
    rw [fire_slots]
    exact h
  have hmem : i ∈ (s.fire i).readyQueue := by
    unfold FuturesUnordered.fire
    by_cases hm : i ∈ s.readyQueue
    · simp [h, hm]
    · simp [h, hm]
  refine ⟨?_, hmem, ?_⟩
  · unfold FuturesUnordered.fire
    by_cases hm : i ∈ s.readyQueue
    · simp [h, hm]
    · simp only [h, hm, if_true, if_false]
      have : slotOccupied s.slots i = true := h
      simp [FuturesUnordered.isOccupied, this]
  · obtain ⟨l₁, l₂, he, hn⟩ := exists_first_split hmem
    exact pollsDone_eventually l₁.length l₁ (le_refl _) (s.fire i) l₂ i he hn hocc'

/-- C9 witness: firing the wake of the sole member of a set queues it and it
is polled on the next `poll_next`; a second fire is absorbed. -/
theorem futuresUnordered_fire_wakes_witness :
    ((⟨[some ⟨3, 9⟩], [], false⟩ : FuturesUnordered Nat).fire 0).fire 0 =
      (⟨[some ⟨3, 9⟩], [], false⟩ : FuturesUnordered Nat).fire 0 ∧
    0 ∈ ((⟨[some ⟨3, 9⟩], [], false⟩ : FuturesUnordered Nat).fire 0).readyQueue :=
  ⟨(futuresUnordered_fire_wakes _ 0 (by decide)).1,
    (futuresUnordered_fire_wakes _ 0 (by decide)).2.1⟩

/-- Modelled from the spec: the shared cancellation flag of the Abort
Controller, a tri-state (`active`, `cancel-requested`, `cancelled`). -/
inductive AbortState where
  | active : AbortState
  | cancelRequested : AbortState
  | cancelled : AbortState
deriving DecidableEq, Repr

/-- Poll outcome of an `Abortable`-wrapped unit: suspension, the unit's own
result, or the distinguished `Aborted` terminal outcome. -/
inductive AbortPoll (α : Type) where
  | pending : AbortPoll α
  | ready (a : α) : AbortPoll α
  | aborted : AbortPoll α
deriving DecidableEq, Repr

/-- Modelled from the spec: the `Abortable` wrapper, whose implementation is
missing from the given sources.  It pairs the wrapped unit with the shared
cancellation flag; `done` records that the unit already completed naturally
(its result was delivered). -/
structure Abortable (α : Type) where
  flag : AbortState
  done : Bool
  inner : MockFuture α
deriving DecidableEq, Repr

/-- Modelled from the spec: `AbortHandle::abort` requests cancellation by an
atomic, idempotent flag mutation. -/
def Abortable.abort {α : Type} (s : Abortable α) : Abortable α :=
  match s.flag with
  | .active => { s with flag := .cancelRequested }
  | _ => s

/-- Modelled from the spec: polling an `Abortable` first checks the shared
cancellation flag and short-circuits to the `Aborted` outcome (exactly once)
if cancellation was requested, otherwise delegates to the wrapped unit.
Poll after a terminal outcome (natural or aborted) yields no result. -/
def Abortable.poll {α : Type} (s : Abortable α) : Abortable α × AbortPoll α :=
  if s.done then (s, .pending)
  else
    match s.flag with
    | .cancelRequested => ({ s with flag := .cancelled }, .aborted)
    | .cancelled => (s, .pending)
    | .active =>
      match MockFuture.poll s.inner with
      | (u, .pending) => ({ s with inner := u }, .pending)
      | (u, .ready v) => ({ s with inner := u, done := true }, .ready v)

/-- C4: before natural completion, the poll after an `abort` yields the
`Aborted` outcome, never the unit's own result, and yields it exactly once;
after natural completion the natural result stands and an abort changes no
poll outcome to `Aborted`. -/
theorem abortable_abort_observed {α : Type} (s : Abortable α)
    (hd : s.done = false) (hf : s.flag = AbortState.active) :
    ((s.abort).poll).2 = AbortPoll.aborted ∧
    (∀ v, ((s.abort).poll).2 ≠ AbortPoll.ready v) ∧
    ((((s.abort).poll).1).poll).2 ≠ AbortPoll.aborted ∧
    (∀ v, (s.poll).2 = AbortPoll.ready v →
      ((((s.poll).1).abort).poll).2 = AbortPoll.pending) := by
  have hab : s.abort = { s with flag := .cancelRequested } := by
    unfold Abortable.abort
    rw [hf]
  have h1 : ((s.abort).poll) = ({ s with flag := .cancelled }, AbortPoll.aborted) := by
    rw [hab]
    unfold Abortable.poll
    simp [hd]
  refine ⟨by rw [h1], by rw [h1]; intro v; exact fun h => AbortPoll.noConfusion h, ?_, ?_⟩
  · rw [h1]
    unfold Abortable.poll
    simp [hd]
  · intro v hv
    unfold Abortable.poll at hv
    rw [hd] at hv
    simp only [Bool.false_eq_true, if_false] at hv
    rw [hf] at hv
    rcases hp : MockFuture.poll s.inner with ⟨u, r⟩
    rw [hp] at hv
    cases r with
    | pending => exact absurd hv (by simp)
    | ready w =>
      have hst : (s.poll).1 = { s with inner := u, done := true } := by
        unfold Abortable.poll
        rw [hd]
        simp only [Bool.false_eq_true, if_false]
        rw [hf, hp]
      rw [hf] at hst
      rw [hst]
      unfold Abortable.abort Abortable.poll
      simp

/-- C4 witness: aborting a unit mid-flight makes its next poll `Aborted`; a
unit that completed naturally is unaffected by a later abort. -/
theorem abortable_abort_observed_witness :
    (((⟨AbortState.active, false, ⟨1, 7⟩⟩ : Abortable Nat).abort).poll).2 =
      AbortPoll.aborted ∧
    (((((⟨AbortState.active, false, ⟨0, 7⟩⟩ : Abortable Nat).poll).1).abort).poll).2 =
      AbortPoll.pending :=
  ⟨(abortable_abort_observed _ rfl rfl).1,
    (abortable_abort_observed (⟨AbortState.active, false, ⟨0, 7⟩⟩ : Abortable Nat)
      rfl rfl).2.2.2 7 (by decide)⟩

/-- A second abort request does nothing further. -/
lemma abort_abort {α : Type} (s : Abortable α) : (s.abort).abort = s.abort := by
  rcases s with ⟨f, d, i⟩
  cases f <;> rfl

/-- C5: `abort` is idempotent — `n ≥ 1` abort calls leave the same state as
one — and an abort issued after natural completion never changes the poll
outcome (the natural result is never overridden). -/
theorem abortable_abort_idempotent {α : Type} (s : Abortable α) (n : Nat)
    (hn : 1 ≤ n) :
    Abortable.abort^[n] s = s.abort ∧
    (s.done = true → ((s.abort).poll).2 = (s.poll).2) := by
  constructor
  · obtain ⟨k, hk⟩ : ∃ k, n = k + 1 := ⟨n - 1, by omega⟩
    subst hk
    clear hn
    induction k with
    | zero => rfl
    | succ m ih =>
      rw [Function.iterate_succ_apply', ih, abort_abort]
  · intro hd
    have hda : (s.abort).done = true := by
      rcases s with ⟨f, d, i⟩
      cases f <;> simpa using hd
    unfold Abortable.poll
    rw [hd, hda]
    simp

/-- C5 witness: three aborts equal one; aborting an already-completed unit
leaves its poll outcome unchanged. -/
theorem abortable_abort_idempotent_witness :
    Abortable.abort^[3] (⟨AbortState.active, true, ⟨0, 7⟩⟩ : Abortable Nat) =
      (⟨AbortState.active, true, ⟨0, 7⟩⟩ : Abortable Nat).abort ∧
    ((((⟨AbortState.active, true, ⟨0, 7⟩⟩ : Abortable Nat).abort).poll).2 =
      ((⟨AbortState.active, true, ⟨0, 7⟩⟩ : Abortable Nat).poll).2) :=
  ⟨(abortable_abort_idempotent _ 3 (by decide)).1,
    (abortable_abort_idempotent (⟨AbortState.active, true, ⟨0, 7⟩⟩ : Abortable Nat)
      3 (by decide)).2 rfl⟩

/-- One poll of a sequence-producing unit modelled as the list of its
remaining items: the head is yielded, and the end of the sequence signals
`Ready(None)`. -/
def streamPollNext {α : Type} (l : List α) : List α × Poll (Option α) :=
  match l with
  | [] => ([], .ready none)
  | a :: rest => (rest, .ready (some a))

/-- Modelled from the spec: the `Fuse` wrapper, whose implementation is
missing from the given sources.  It records whether the wrapped sequence has
signaled final completion. -/
structure Fuse (α : Type) where
  inner : List α
  done : Bool
deriving DecidableEq, Repr

/-- Modelled from the spec: polling a fused stream returns `Ready(None)`
without touching the wrapped unit once completion has been observed;
otherwise it delegates and latches `done` on end-of-sequence. -/
def Fuse.pollNext {α : Type} (s : Fuse α) : Fuse α × Poll (Option α) :=
  if s.done then (s, .ready none)
  else
    match streamPollNext s.inner with
    | (st, .ready none) => (⟨st, true⟩, .ready none)
    | (st, r) => (⟨st, false⟩, r)

/-- A fused stream whose poll signals completion is latched `done`. -/
lemma fuse_done_of_ready_none {α : Type} {s : Fuse α}
    (h : (s.pollNext).2 = Poll.ready none) : ((s.pollNext).1).done = true := by
  rcases s with ⟨inner, d⟩
  cases d
  · cases inner with
    | nil => rfl
    | cons a rest =>
      exfalso
      revert h
      simp [Fuse.pollNext, streamPollNext]
  · simp [Fuse.pollNext]

/-- A latched fused stream is a fixed point of `poll_next`, always answering
`Ready(None)`. -/
lemma fuse_done_fixed {α : Type} {s : Fuse α} (h : s.done = true) :
    s.pollNext = (s, Poll.ready none) := by
  unfold Fuse.pollNext
  simp [h]

/-- C6: once the wrapped sequence has signaled final completion, every later
poll of the fused wrapper returns `Ready(None)` and leaves the state — hence
the underlying unit — untouched, for any number of post-completion polls. -/
theorem fuse_post_completion {α : Type} (s : Fuse α)
    (h : (s.pollNext).2 = Poll.ready none) :
    ∀ n : Nat,
      ((fun t : Fuse α => (t.pollNext).1)^[n] ((s.pollNext).1)) = (s.pollNext).1 ∧
      (Fuse.pollNext ((fun t : Fuse α => (t.pollNext).1)^[n] ((s.pollNext).1))).2 =
        Poll.ready none := by
  have hdone := fuse_done_of_ready_none h
  intro n
  have hfix : ∀ m : Nat,
      ((fun t : Fuse α => (t.pollNext).1)^[m] ((s.pollNext).1)) = (s.pollNext).1 := by
    intro m
    induction m with
    | zero => rfl
    | succ k ih =>
      rw [Function.iterate_succ_apply', ih]
      show ((s.pollNext).1.pollNext).1 = (s.pollNext).1
      rw [fuse_done_fixed hdone]
  refine ⟨hfix n, ?_⟩
  rw [hfix n, fuse_done_fixed hdone]

/-- C6 witness: after a stream of one item is exhausted, two further polls of
the fuse both return `Ready(None)` with the state unchanged. -/
theorem fuse_post_completion_witness :
    ((fun t : Fuse Nat => (t.pollNext).1)^[2]
        (((⟨[], false⟩ : Fuse Nat).pollNext).1)) =
      (((⟨[], false⟩ : Fuse Nat).pollNext).1) ∧
    (Fuse.pollNext ((fun t : Fuse Nat => (t.pollNext).1)^[2]
        (((⟨[], false⟩ : Fuse Nat).pollNext).1))).2 = Poll.ready none :=
  fuse_post_completion (⟨[], false⟩ : Fuse Nat) (by decide) 2

/-- Which arm a two-arm multiplexer polls first (`PollNext` in the source's
`select_with_strategy`). -/
inductive PollNext where
  | left : PollNext
  | right : PollNext
deriving DecidableEq, Repr

/-- The other arm. -/
def PollNext.toggle : PollNext → PollNext
  | .left => .right
  | .right => .left

/-- Modelled from the spec: a two-arm multiplexer under the default
round-robin strategy, whose implementation (`select_with_strategy`) is
missing from the given sources.  Each arm is a sequence of per-poll
readiness outcomes (`none` = not ready at that poll instant) with a cursor;
`side` is the strategy state, i.e. the arm polled first in the next cycle. -/
structure SelectWithStrategy (α : Type) where
  leftArm : Nat → Option α
  rightArm : Nat → Option α
  leftPos : Nat
  rightPos : Nat
  side : PollNext

/-- The value the given arm would produce if polled now. -/
def SelectWithStrategy.armValue {α : Type} (s : SelectWithStrategy α) :
    PollNext → Option α
  | .left => s.leftArm s.leftPos
  | .right => s.rightArm s.rightPos

/-- Consume the given arm's current value and toggle the strategy state. -/
def SelectWithStrategy.consume {α : Type} (s : SelectWithStrategy α) :
    PollNext → SelectWithStrategy α
  | .left => { s with leftPos := s.leftPos + 1, side := s.side.toggle }
  | .right => { s with rightPos := s.rightPos + 1, side := s.side.toggle }

/-- Modelled from the spec: one poll cycle of the multiplexer.  The
round-robin strategy toggles the stored side each cycle; the chosen arm is
polled first, the other arm is polled only if the first is not ready, and
the produced value is tagged with the arm that yielded it. -/
def SelectWithStrategy.pollNext {α : Type} (s : SelectWithStrategy α) :
    SelectWithStrategy α × Poll (PollNext × α) :=
  match s.armValue s.side with
  | some v => (s.consume s.side, .ready (s.side, v))
  | none =>
    match s.armValue s.side.toggle with
    | some v => (s.consume s.side.toggle, .ready (s.side.toggle, v))
    | none => ({ s with side := s.side.toggle }, .pending)

/-- The multiplexer state after `n` poll cycles. -/
def SelectWithStrategy.runState {α : Type} (s : SelectWithStrategy α) :
    Nat → SelectWithStrategy α
  | 0 => s
  | n + 1 => ((s.runState n).pollNext).1

/-- The arm that produced the value of the `n`-th poll cycle, if any. -/
def SelectWithStrategy.tagAt {α : Type} (s : SelectWithStrategy α) (n : Nat) :
    Option PollNext :=
  match ((s.runState n).pollNext).2 with
  | .ready (t, _) => some t
  | .pending => none

lemma toggle_ne {t : PollNext} : t.toggle ≠ t := by
  cases t <;> exact fun h => PollNext.noConfusion h

/-- With the chosen arm ready, a poll cycle yields from exactly that arm and
toggles the strategy state. -/
lemma pollNext_of_ready {α : Type} {s : SelectWithStrategy α} {v : α}
    (h : s.armValue s.side = some v) :
    s.pollNext = (s.consume s.side, .ready (s.side, v)) := by
  unfold SelectWithStrategy.pollNext
  rw [h]

lemma consume_side {α : Type} (s : SelectWithStrategy α) (t : PollNext) :
    (s.consume t).side = s.side.toggle := by
  cases t <;> rfl

lemma consume_arms {α : Type} (s : SelectWithStrategy α) (t : PollNext) :
    (s.consume t).leftArm = s.leftArm ∧ (s.consume t).rightArm = s.rightArm := by
  cases t <;> exact ⟨rfl, rfl⟩

/-- The arm readiness functions never change while polling. -/
lemma runState_arms {α : Type} (s : SelectWithStrategy α) :
    ∀ n, (s.runState n).leftArm = s.leftArm ∧ (s.runState n).rightArm = s.rightArm := by
  intro n
  induction n with
  | zero => exact ⟨rfl, rfl⟩
  | succ k ih =>
    show (((s.runState k).pollNext).1).leftArm = s.leftArm ∧
      (((s.runState k).pollNext).1).rightArm = s.rightArm
    unfold SelectWithStrategy.pollNext
    rcases h : (s.runState k).armValue (s.runState k).side with _ | v
    · rcases h2 : (s.runState k).armValue (s.runState k).side.toggle with _ | w
      · simpa using ih
      · simp only [h, h2]
        rcases consume_arms (s.runState k) (s.runState k).side.toggle with ⟨c1, c2⟩
        exact ⟨c1.trans ih.1, c2.trans ih.2⟩
    · simp only [h]
      rcases consume_arms (s.runState k) (s.runState k).side with ⟨c1, c2⟩
      exact ⟨c1.trans ih.1, c2.trans ih.2⟩

/-- C8: with both arms always ready under the round-robin strategy, every
poll yields a value and any two consecutive polls return values from
different arms — neither arm is starved. -/
theorem select_round_robin_alternates {α : Type} (s : SelectWithStrategy α)
    (hL : ∀ k, (s.leftArm k).isSome = true) (hR : ∀ k, (s.rightArm k).isSome = true) :
    ∀ n, (s.tagAt n).isSome = true ∧ s.tagAt (n + 1) ≠ s.tagAt n := by
  have hready : ∀ n, ∃ v, (s.runState n).armValue (s.runState n).side = some v := by
    intro n
    rcases runState_arms s n with ⟨c1, c2⟩
    cases ht : (s.runState n).side with
    | left =>
      have := hL ((s.runState n).leftPos)
      rw [← c1] at this
      obtain ⟨v, hv⟩ := Option.isSome_iff_exists.mp this
      exact ⟨v, by unfold SelectWithStrategy.armValue; exact hv⟩
    | right =>
      have := hR ((s.runState n).rightPos)
      rw [← c2] at this
      obtain ⟨v, hv⟩ := Option.isSome_iff_exists.mp this
      exact ⟨v, by unfold SelectWithStrategy.armValue; exact hv⟩
  have htag : ∀ n, s.tagAt n = some ((s.runState n).side) := by
    intro n
    obtain ⟨v, hv⟩ := hready n
    unfold SelectWithStrategy.tagAt
    rw [pollNext_of_ready hv]
  have hside : ∀ n, (s.runState (n + 1)).side = ((s.runState n).side).toggle := by
    intro n
    obtain ⟨v, hv⟩ := hready n
    show (((s.runState n).pollNext).1).side = ((s.runState n).side).toggle
    rw [pollNext_of_ready hv]
    exact consume_side _ _
  intro n
  refine ⟨by rw [htag n]; rfl, ?_⟩
  rw [htag n, htag (n + 1), hside n]
  intro h
  exact toggle_ne (Option.some.inj h)

/-- C8 witness: with two constant always-ready arms, poll 0 and poll 1 yield
from different arms. -/
theorem select_round_robin_alternates_witness :
    ((⟨fun _ => some 1, fun _ => some 2, 0, 0, PollNext.left⟩ :
        SelectWithStrategy Nat).tagAt 0).isSome = true ∧
    (⟨fun _ => some 1, fun _ => some 2, 0, 0, PollNext.left⟩ :
        SelectWithStrategy Nat).tagAt 1 ≠
      (⟨fun _ => some 1, fun _ => some 2, 0, 0, PollNext.left⟩ :
        SelectWithStrategy Nat).tagAt 0 :=
  select_round_robin_alternates
    (⟨fun _ => some 1, fun _ => some 2, 0, 0, PollNext.left⟩ : SelectWithStrategy Nat)
    (fun _ => rfl) (fun _ => rfl) 0

/-- The Stream contract as a capability interface: a state type that can be
polled for the next item of a sequence with the stated item type. -/
class StreamContract (S : Type) (T : outParam Type) where
  poll_next : S → S × Poll (Option T)

/-- Lists of items form a stream. -/
instance : StreamContract (List Nat) Nat := ⟨streamPollNext⟩

/-- Embedded from the source (`futures-util/src/stream/mod.rs`): the helper
that pins down a stream's implementation and item type at compile time and
returns its argument. -/
def assert_stream {T S : Type} [StreamContract S T] (stream : S) : S :=
  stream

/-- C10: `assert_stream` is the identity on streams — it returns its argument
unchanged; the `Stream` bound is a compile-time constraint only. -/
theorem assert_stream_id {T S : Type} [StreamContract S T] (stream : S) :
    assert_stream (T := T) stream = stream := rfl

/-- C10 witness: `assert_stream` on a concrete list stream. -/
theorem assert_stream_id_witness :
    assert_stream (T := Nat) [1, 2, 3] = [1, 2, 3] :=
  assert_stream_id [1, 2, 3]

/-- Admission sequence numbers of a list of (sequence number, value) pairs. -/
def keys {α : Type} (l : List (Nat × α)) : List Nat :=
  l.map Prod.fst

/-- Modelled from the spec: lazy admission of a Bounded Concurrency
Pipeline.  Pending units are admitted, in input order, while the number of
in-flight units is below the configured limit. -/
def admitLoop {α : Type} (limit : Nat) :
    List (Nat × α) → List (Nat × α) → List (Nat × α) × List (Nat × α)
  | [], inflight => ([], inflight)
  | p :: rest, inflight =>
    if inflight.length < limit then admitLoop limit rest (inflight ++ [p])
    else (p :: rest, inflight)

/-- First value stored under sequence number `k`. -/
def lookupKey {α : Type} (k : Nat) : List (Nat × α) → Option α
  | [] => none
  | p :: rest => if p.1 = k then some p.2 else lookupKey k rest

/-- Drop the first entry stored under sequence number `k`. -/
def eraseKey {α : Type} (k : Nat) : List (Nat × α) → List (Nat × α)
  | [] => []
  | p :: rest => if p.1 = k then rest else p :: eraseKey k rest

/-- Modelled from the spec: the release loop of the ordered mode.  While the
reorder buffer holds the result with the next admission sequence number, that
result is released and the cursor advances; the fuel (always at least the
buffer length) only bounds the recursion. -/
def releaseFuel {α : Type} :
    Nat → List (Nat × α) → Nat → List α → List (Nat × α) × Nat × List α
  | 0, buf, nr, out => (buf, nr, out)
  | fuel + 1, buf, nr, out =>
    match lookupKey nr buf with
    | none => (buf, nr, out)
    | some v => releaseFuel fuel (eraseKey nr buf) (nr + 1) (out ++ [v])

/-- Modelled from the spec: the state of the ordered-mode Bounded Concurrency
Pipeline (`FuturesOrdered`, and `Buffered` which wraps it), whose
implementation is missing from the given sources.  Units carry their
admission sequence number; completed-but-not-yet-released results wait in the
reorder buffer until all earlier-admitted units have been released. -/
structure FuturesOrdered (α : Type) where
  limit : Nat
  pending : List (Nat × α)
  inflight : List (Nat × α)
  buffer : List (Nat × α)
  nextRel : Nat
  released : List α

/-- Admit pending units while the admission window has room. -/
def FuturesOrdered.admitAll {α : Type} (s : FuturesOrdered α) : FuturesOrdered α :=
  { s with pending := (admitLoop s.limit s.pending s.inflight).1,
           inflight := (admitLoop s.limit s.pending s.inflight).2 }

/-- One internal completion, chosen adversarially: the `c`-th in-flight unit
(modulo the in-flight count) finishes and its result moves to the reorder
buffer. -/
def FuturesOrdered.complete {α : Type} (s : FuturesOrdered α) (c : Nat) :
    FuturesOrdered α :=
  if s.inflight.length = 0 then s
  else
    { s with inflight := s.inflight.take (c % s.inflight.length) ++
               s.inflight.drop (c % s.inflight.length + 1),
             buffer := s.buffer ++ (s.inflight.drop (c % s.inflight.length)).take 1 }

/-- Release every buffered result whose sequence number is next in admission
order. -/
def FuturesOrdered.release {α : Type} (s : FuturesOrdered α) : FuturesOrdered α :=
  { s with buffer := (releaseFuel s.buffer.length s.buffer s.nextRel s.released).1,
           nextRel := (releaseFuel s.buffer.length s.buffer s.nextRel s.released).2.1,
           released := (releaseFuel s.buffer.length s.buffer s.nextRel s.released).2.2 }

/-- One scheduler step: admit as far as the window allows, let an adversarially
chosen in-flight unit complete, then release whatever is in order. -/
def FuturesOrdered.step {α : Type} (s : FuturesOrdered α) (c : Nat) : FuturesOrdered α :=
  ((s.admitAll).complete c).release

/-- The pipeline at start: `k` units, the `j`-th producing `f j`, none yet
admitted. -/
def FuturesOrdered.init {α : Type} (limit k : Nat) (f : Nat → α) : FuturesOrdered α :=
  ⟨limit, (List.range k).map (fun j => (j, f j)), [], [], 0, []⟩

/-- The pipeline after an arbitrary completion schedule. -/
def FuturesOrdered.run {α : Type} (limit k : Nat) (f : Nat → α) (sched : List Nat) :
    FuturesOrdered α :=
  sched.foldl FuturesOrdered.step (FuturesOrdered.init limit k f)

/-- Modelled from the spec: the unordered-result Bounded Concurrency Pipeline
(`BufferUnordered`), whose implementation is missing from the given sources.
Results are released in completion order, so no reorder buffer is needed. -/
structure BufferUnordered (α : Type) where
  limit : Nat
  pending : List α
  inflight : List α
  released : List α
deriving DecidableEq, Repr

/-- Admit the next pending unit if the admission window has room. -/
def BufferUnordered.tryAdmit {α : Type} (s : BufferUnordered α) : BufferUnordered α :=
  match s.pending with
  | [] => s
  | u :: rest =>
    if s.inflight.length < s.limit then
      { s with pending := rest, inflight := s.inflight ++ [u] }
    else s

/-- One internal completion, chosen adversarially: the `c`-th in-flight unit
finishes and its result is released immediately. -/
def BufferUnordered.complete {α : Type} (s : BufferUnordered α) (c : Nat) :
    BufferUnordered α :=
  if s.inflight.length = 0 then s
  else
    { s with inflight := s.inflight.take (c % s.inflight.length) ++
               s.inflight.drop (c % s.inflight.length + 1),
             released := s.released ++ (s.inflight.drop (c % s.inflight.length)).take 1 }

/-- States of the unordered pipeline reachable by any interleaving of
admissions and completions from a start state. -/
inductive BUReach {α : Type} : BufferUnordered α → Prop where
  | init (limit : Nat) (input : List α) : BUReach ⟨limit, input, [], []⟩
  | admitOne {s : BufferUnordered α} : BUReach s → BUReach s.tryAdmit
  | complete {s : BufferUnordered α} (c : Nat) : BUReach s → BUReach (s.complete c)

/-- Admission never pushes the in-flight count above the limit. -/
lemma admitLoop_length_le {α : Type} (limit : Nat) :
    ∀ (pending inflight : List (Nat × α)), inflight.length ≤ limit →
      ((admitLoop limit pending inflight).2).length ≤ limit := by
  intro pending
  induction pending with
  | nil => intro inflight h; exact h
  | cons p rest ih =>
    intro inflight h
    unfold admitLoop
    by_cases hl : inflight.length < limit
    · simp only [hl, if_true]
      exact ih _ (by simp only [List.length_append, List.length_singleton]; omega)
    · simp only [hl, if_false]
      exact h

lemma bufferUnordered_tryAdmit_fields {α : Type} (s : BufferUnordered α) :
    (s.tryAdmit).limit = s.limit ∧
    ((s.tryAdmit).inflight.length ≤ s.inflight.length + 1) ∧
    (s.inflight.length < s.limit ∨ (s.tryAdmit).inflight = s.inflight) := by
  rcases s with ⟨L, pending, inflight, released⟩
  cases pending with
  | nil => exact ⟨rfl, Nat.le_succ _, Or.inr rfl⟩
  | cons u rest =>
    by_cases hl : inflight.length < L
    · refine ⟨?_, ?_, Or.inl hl⟩ <;> simp [BufferUnordered.tryAdmit, hl]
    · refine ⟨?_, ?_, Or.inr ?_⟩ <;> simp [BufferUnordered.tryAdmit, hl]

lemma bufferUnordered_complete_fields {α : Type} (s : BufferUnordered α) (c : Nat) :
    (s.complete c).limit = s.limit ∧
    ((s.complete c).inflight).length ≤ s.inflight.length := by
  unfold BufferUnordered.complete
  by_cases h0 : s.inflight.length = 0
  · rw [if_pos h0]
    exact ⟨rfl, le_refl _⟩
  · rw [if_neg h0]
    refine ⟨rfl, ?_⟩
    show (s.inflight.take (c % s.inflight.length) ++
        s.inflight.drop (c % s.inflight.length + 1)).length ≤ s.inflight.length
    generalize c % s.inflight.length = idx
    simp only [List.length_append, List.length_take, List.length_drop]
    omega

lemma futuresOrdered_complete_fields {α : Type} (s : FuturesOrdered α) (c : Nat) :
    (s.complete c).limit = s.limit ∧
    ((s.complete c).inflight).length ≤ s.inflight.length := by
  unfold FuturesOrdered.complete
  by_cases h0 : s.inflight.length = 0
  · rw [if_pos h0]
    exact ⟨rfl, le_refl _⟩
  · rw [if_neg h0]
    refine ⟨rfl, ?_⟩
    show (s.inflight.take (c % s.inflight.length) ++
        s.inflight.drop (c % s.inflight.length + 1)).length ≤ s.inflight.length
    generalize c % s.inflight.length = idx
    simp only [List.length_append, List.length_take, List.length_drop]
    omega

lemma futuresOrdered_step_fields {α : Type} (s : FuturesOrdered α) (c : Nat)
    (h : s.inflight.length ≤ s.limit) :
    (s.step c).limit = s.limit ∧ ((s.step c).inflight).length ≤ s.limit := by
  have hadm : (s.admitAll).limit = s.limit ∧
      ((s.admitAll).inflight).length ≤ s.limit :=
    ⟨rfl, admitLoop_length_le s.limit s.pending s.inflight h⟩
  have hcomp := futuresOrdered_complete_fields (s.admitAll) c
  refine ⟨hcomp.1.trans hadm.1, ?_⟩
  show ((((s.admitAll).complete c).release).inflight).length ≤ s.limit
  have hrel : (((s.admitAll).complete c).release).inflight =
      ((s.admitAll).complete c).inflight := rfl
  rw [hrel]
  exact hcomp.2.trans hadm.2

lemma foldl_step_bound {α : Type} :
    ∀ (sched : List Nat) (s : FuturesOrdered α), s.inflight.length ≤ s.limit →
      (sched.foldl FuturesOrdered.step s).limit = s.limit ∧
      ((sched.foldl FuturesOrdered.step s).inflight).length ≤ s.limit := by
  intro sched
  induction sched with
  | nil => intro s h; exact ⟨rfl, h⟩
  | cons c rest ih =>
    intro s h
    obtain ⟨h1, h2⟩ := futuresOrdered_step_fields s c h
    obtain ⟨ha, hb⟩ := ih (s.step c) (by rw [h1]; exact h2)
    rw [h1] at ha hb
    exact ⟨ha, hb⟩

/-- C3: the admitted-but-incomplete count of a Bounded Concurrency Pipeline
never exceeds the configured limit — in the unordered variant over every
reachable interleaving of admissions and completions, and in the ordered
variant over every completion schedule. -/
theorem pipeline_admission_bounded {α : Type} :
    (∀ s : BufferUnordered α, BUReach s → s.inflight.length ≤ s.limit) ∧
    (∀ (limit k : Nat) (f : Nat → α) (sched : List Nat),
      ((FuturesOrdered.run limit k f sched).inflight).length ≤ limit) := by
  constructor
  · intro s h
    induction h with
    | init limit input => exact Nat.zero_le _
    | admitOne hr ih =>
      rename_i t
      obtain ⟨h1, h2, h3⟩ := bufferUnordered_tryAdmit_fields t
      rw [h1]
      rcases h3 with h3 | h3
      · omega
      · rw [h3]; exact ih
    | complete c hr ih =>
      rename_i t
      obtain ⟨h1, h2⟩ := bufferUnordered_complete_fields t c
      rw [h1]
      exact h2.trans ih
  · intro limit k f sched
    have := foldl_step_bound sched (FuturesOrdered.init limit k f) (Nat.zero_le _)
    exact this.2

/-- C3 witness: a limit-1 unordered pipeline that admitted one of two units
stays within its window; an ordered run of four units under limit 2 does
too. -/
theorem pipeline_admission_bounded_witness :
    ((⟨1, [5, 6], [], []⟩ : BufferUnordered Nat).tryAdmit).inflight.length ≤
      ((⟨1, [5, 6], [], []⟩ : BufferUnordered Nat).tryAdmit).limit ∧
    ((FuturesOrdered.run 2 4 (fun j => j) [0, 0, 0, 0]).inflight).length ≤ 2 :=
  ⟨(pipeline_admission_bounded (α := Nat)).1 _ (BUReach.admitOne (BUReach.init 1 [5, 6])),
    (pipeline_admission_bounded (α := Nat)).2 2 4 (fun j => j) [0, 0, 0, 0]⟩

lemma keys_append {α : Type} (a b : List (Nat × α)) :
    keys (a ++ b) = keys a ++ keys b :=
  List.map_append _ _ _

lemma lookupKey_eq_none_iff {α : Type} {k : Nat} :
    ∀ {l : List (Nat × α)}, lookupKey k l = none ↔ k ∉ keys l := by
  intro l
  induction l with
  | nil => simp [lookupKey, keys]
  | cons p rest ih =>
    unfold lookupKey
    by_cases hp : p.1 = k
    · simp [hp, keys]
    · simp only [hp, if_false, ih, keys, List.map_cons, List.mem_cons]
      constructor
      · intro h hmem
        rcases hmem with h1 | h1
        · exact hp h1.symm
        · exact h h1
      · intro h h1
        exact h (Or.inr h1)

lemma lookupKey_mem {α : Type} {k : Nat} {v : α} :
    ∀ {l : List (Nat × α)}, lookupKey k l = some v → (k, v) ∈ l := by
  intro l
  induction l with
  | nil => intro h; exact Option.noConfusion h
  | cons p rest ih =>
    intro h
    unfold lookupKey at h
    by_cases hp : p.1 = k
    · rw [if_pos hp] at h
      have : p = (k, v) := by
        rcases p with ⟨a, b⟩
        simp only at hp
        simp only [Option.some.injEq] at h
        rw [hp, h]
      simp [this]
    · rw [if_neg hp] at h
      exact List.mem_cons_of_mem _ (ih h)

lemma length_eraseKey {α : Type} {k : Nat} {v : α} :
    ∀ {l : List (Nat × α)}, lookupKey k l = some v →
      (eraseKey k l).length + 1 = l.length := by
  intro l
  induction l with
  | nil => intro h; exact Option.noConfusion h
  | cons p rest ih =>
    intro h
    unfold lookupKey at h
    unfold eraseKey
    by_cases hp : p.1 = k
    · rw [if_pos hp]
      rfl
    · rw [if_neg hp] at h
      rw [if_neg hp, List.length_cons, List.length_cons, ih h]

lemma keys_eraseKey_perm {α : Type} {k : Nat} {v : α} :
    ∀ {l : List (Nat × α)}, lookupKey k l = some v →
      (keys l).Perm (k :: keys (eraseKey k l)) := by
  intro l
  induction l with
  | nil => intro h; exact Option.noConfusion h
  | cons p rest ih =>
    intro h
    unfold lookupKey at h
    unfold eraseKey
    by_cases hp : p.1 = k
    · rw [if_pos hp]
      show (p.1 :: keys rest).Perm (k :: keys rest)
      rw [hp]
    · rw [if_neg hp] at h
      rw [if_neg hp]
      show (p.1 :: keys rest).Perm (k :: keys (p :: eraseKey k rest))
      have h2 : (p.1 :: keys rest).Perm (p.1 :: k :: keys (eraseKey k rest)) :=
        (ih h).cons p.1
      exact h2.trans (List.Perm.swap k p.1 _)

lemma mem_eraseKey {α : Type} {k : Nat} {p : Nat × α} :
    ∀ {l : List (Nat × α)}, p ∈ eraseKey k l → p ∈ l := by
  intro l
  induction l with
  | nil => intro h; exact absurd h (List.not_mem_nil p)
  | cons q rest ih =>
    intro h
    unfold eraseKey at h
    by_cases hq : q.1 = k
    · rw [if_pos hq] at h
      exact List.mem_cons_of_mem _ h
    · rw [if_neg hq] at h
      rcases List.mem_cons.mp h with h1 | h1
      · exact h1 ▸ List.mem_cons_self q rest
      · exact List.mem_cons_of_mem _ (ih h1)

/-- `admitLoop` moves a prefix of the pending queue to the back of the
in-flight list, preserving order. -/
lemma admitLoop_spec {α : Type} (limit : Nat) :
    ∀ (pending inflight : List (Nat × α)),
      ∃ m, pending = m ++ (admitLoop limit pending inflight).1 ∧
        (admitLoop limit pending inflight).2 = inflight ++ m := by
  intro pending
  induction pending with
  | nil => intro inflight; exact ⟨[], rfl, by simp [admitLoop]⟩
  | cons p rest ih =>
    intro inflight
    unfold admitLoop
    by_cases hl : inflight.length < limit
    · rw [if_pos hl]
      obtain ⟨m, h1, h2⟩ := ih (inflight ++ [p])
      refine ⟨p :: m, ?_, ?_⟩
      · rw [List.cons_append, ← h1]
      · rw [h2, List.append_assoc, List.singleton_append]
    · rw [if_neg hl]
      exact ⟨[], rfl, by simp⟩

/-- The ordered-pipeline invariant, relative to the input `k` units with
results `f 0, …, f (k-1)`: some prefix of length `d` has been admitted; the
pending queue is the un-admitted suffix in order; the sequence numbers in
flight or buffered are exactly the admitted-but-unreleased window, their
stored results are correct, and everything below the release cursor has been
released in admission order. -/
def FuturesOrdered.Inv {α : Type} (k : Nat) (f : Nat → α) (s : FuturesOrdered α) : Prop :=
  ∃ d, s.nextRel ≤ d ∧ d ≤ k ∧
    s.pending = (List.range' d (k - d)).map (fun j => (j, f j)) ∧
    ((keys (s.inflight ++ s.buffer)).Perm (List.range' s.nextRel (d - s.nextRel))) ∧
    (∀ p ∈ s.inflight ++ s.buffer, p.2 = f p.1) ∧
    s.released = (List.range s.nextRel).map f

/-- The invariant together with the release loop's postcondition: nothing
releasable is still buffered. -/
def FuturesOrdered.InvR {α : Type} (k : Nat) (f : Nat → α) (s : FuturesOrdered α) : Prop :=
  FuturesOrdered.Inv k f s ∧ lookupKey s.nextRel s.buffer = none

/-- Admission preserves the ordered-pipeline invariant: the admitted prefix
grows, the window permutation absorbs the newly admitted sequence numbers. -/
lemma inv_admitAll {α : Type} {k : Nat} {f : Nat → α} {s : FuturesOrdered α}
    (h : FuturesOrdered.Inv k f s) : FuturesOrdered.Inv k f s.admitAll := by
  obtain ⟨d, hnr, hdk, hpend, hperm, hvals, hrel⟩ := h
  obtain ⟨m, hm1, hm2⟩ := admitLoop_spec s.limit s.pending s.inflight
  have hplen : s.pending.length = k - d := by
    rw [hpend, List.length_map, List.length_range']
  have hlen : m.length + (admitLoop s.limit s.pending s.inflight).1.length = k - d := by
    have h0 := congrArg List.length hm1
    rw [hplen, List.length_append] at h0
    omega
  have hmle : m.length ≤ k - d := by omega
  have hsplit : List.range' d (k - d) =
      List.range' d m.length ++ List.range' (d + m.length) (k - d - m.length) := by
    have h3 := List.range'_append_1 d m.length (k - d - m.length)
    rw [show k - d - m.length + m.length = k - d from by omega] at h3
    exact h3.symm
  have hmap : m ++ (admitLoop s.limit s.pending s.inflight).1 =
      (List.range' d m.length).map (fun j => (j, f j)) ++
        (List.range' (d + m.length) (k - d - m.length)).map (fun j => (j, f j)) := by
    rw [← hm1, hpend, hsplit, List.map_append]
  have hinj := List.append_inj hmap (by rw [List.length_map, List.length_range'])
  have hkm : keys m = List.range' d m.length := by
    rw [hinj.1]
    unfold keys
    rw [List.map_map]
    have hcomp2 : (Prod.fst ∘ fun j : Nat => (j, f j)) = id := rfl
    rw [hcomp2, List.map_id, List.length_map, List.length_range']
  have hperm' : (keys s.inflight ++ keys s.buffer).Perm
      (List.range' s.nextRel (d - s.nextRel)) := by
    rw [← keys_append]
    exact hperm
  refine ⟨d + m.length, ?_, by omega, ?_, ?_, ?_, hrel⟩
  · show s.nextRel ≤ d + m.length
    omega
  · show (admitLoop s.limit s.pending s.inflight).1 =
      (List.range' (d + m.length) (k - (d + m.length))).map (fun j => (j, f j))
    rw [hinj.2]
    congr 2
    omega
  · show (keys ((admitLoop s.limit s.pending s.inflight).2 ++ s.buffer)).Perm
      (List.range' s.nextRel (d + m.length - s.nextRel))
    rw [hm2, keys_append, keys_append]
    have step1 : ((keys s.inflight ++ keys m) ++ keys s.buffer).Perm
        ((keys s.inflight ++ keys s.buffer) ++ keys m) := by
      rw [List.append_assoc, List.append_assoc]
      exact List.Perm.append_left _ List.perm_append_comm
    have step2 : ((keys s.inflight ++ keys s.buffer) ++ keys m).Perm
        (List.range' s.nextRel (d - s.nextRel) ++ List.range' d m.length) := by
      rw [hkm]
      exact List.Perm.append_right _ hperm'
    have step3 : List.range' s.nextRel (d - s.nextRel) ++ List.range' d m.length =
        List.range' s.nextRel (d + m.length - s.nextRel) := by
      have h3 := List.range'_append_1 s.nextRel (d - s.nextRel) m.length
      rw [show s.nextRel + (d - s.nextRel) = d from by omega] at h3
      rw [h3]
      congr 1
      omega
    exact step1.trans (step3 ▸ step2)
  · intro p hp
    have hp0 : p ∈ (admitLoop s.limit s.pending s.inflight).2 ++ s.buffer := hp
    rw [hm2] at hp0
    rcases List.mem_append.mp hp0 with hp1 | hp1
    · rcases List.mem_append.mp hp1 with hp2 | hp2
      · exact hvals p (List.mem_append.mpr (Or.inl hp2))
      · rw [hinj.1] at hp2
        obtain ⟨j, -, hj2⟩ := List.mem_map.mp hp2
        rw [← hj2]
    · exact hvals p (List.mem_append.mpr (Or.inr hp1))

/-- An internal completion preserves the ordered-pipeline invariant: it only
moves one pair from the in-flight list to the reorder buffer. -/
lemma inv_complete {α : Type} {k : Nat} {f : Nat → α} {s : FuturesOrdered α}
    (h : FuturesOrdered.Inv k f s) (c : Nat) :
    FuturesOrdered.Inv k f (s.complete c) := by
  obtain ⟨d, hnr, hdk, hpend, hperm, hvals, hrel⟩ := h
  by_cases h0 : s.inflight.length = 0
  · have hc : s.complete c = s := by
      unfold FuturesOrdered.complete
      rw [if_pos h0]
    rw [hc]
    exact ⟨d, hnr, hdk, hpend, hperm, hvals, hrel⟩
  · have hlt : c % s.inflight.length < s.inflight.length :=
      Nat.mod_lt _ (Nat.pos_of_ne_zero h0)
    have hc : s.complete c = { s with
        inflight := s.inflight.take (c % s.inflight.length) ++
          s.inflight.drop (c % s.inflight.length + 1),
        buffer := s.buffer ++ (s.inflight.drop (c % s.inflight.length)).take 1 } := by
      unfold FuturesOrdered.complete
      rw [if_neg h0]
    obtain ⟨q, hq⟩ : ∃ q, s.inflight.drop (c % s.inflight.length) =
        q :: s.inflight.drop (c % s.inflight.length + 1) :=
      ⟨_, List.drop_eq_getElem_cons hlt⟩
    have hqmem : q ∈ s.inflight := by
      have h1 : q ∈ s.inflight.drop (c % s.inflight.length) := by
        rw [hq]
        exact List.mem_cons_self _ _
      exact List.mem_of_mem_drop h1
    have htake1 : (s.inflight.drop (c % s.inflight.length)).take 1 = [q] := by
      rw [hq]
      rfl
    have hsplitin : s.inflight = s.inflight.take (c % s.inflight.length) ++
        q :: s.inflight.drop (c % s.inflight.length + 1) := by
      conv_lhs => rw [← List.take_append_drop (c % s.inflight.length) s.inflight]
      rw [hq]
    rw [hc]
    refine ⟨d, hnr, hdk, hpend, ?_, ?_, hrel⟩
    · show (keys ((s.inflight.take (c % s.inflight.length) ++
          s.inflight.drop (c % s.inflight.length + 1)) ++
          (s.buffer ++ (s.inflight.drop (c % s.inflight.length)).take 1))).Perm
        (List.range' s.nextRel (d - s.nextRel))
      rw [htake1]
      refine List.Perm.trans ?_ hperm
      conv_rhs => rw [hsplitin]
      simp only [keys, List.map_append, List.map_cons, List.map_nil]
      simp only [List.append_assoc, List.cons_append]
      refine List.Perm.append_left _ ?_
      rw [← List.append_assoc]
      exact List.perm_append_singleton _ _
    · intro p hp
      have hp0 : p ∈ (s.inflight.take (c % s.inflight.length) ++
          s.inflight.drop (c % s.inflight.length + 1)) ++
          (s.buffer ++ (s.inflight.drop (c % s.inflight.length)).take 1) := hp
      rw [htake1] at hp0
      rcases List.mem_append.mp hp0 with hp1 | hp1
      · rcases List.mem_append.mp hp1 with hp2 | hp2
        · exact hvals p (List.mem_append.mpr (Or.inl (List.mem_of_mem_take hp2)))
        · exact hvals p (List.mem_append.mpr (Or.inl (List.mem_of_mem_drop hp2)))
      · rcases List.mem_append.mp hp1 with hp2 | hp2
        · exact hvals p (List.mem_append.mpr (Or.inr hp2))
        · have hpq : p = q := by simpa using hp2
          exact hvals p (List.mem_append.mpr (Or.inl (hpq ▸ hqmem)))

/-- Specification of the release loop: it advances the cursor as far as the
buffered window allows, releasing results in exact admission order, and stops
only when the next sequence number is not buffered. -/
lemma releaseFuel_spec {α : Type} (f : Nat → α) (flk : List Nat) (d : Nat) :
    ∀ (fuel : Nat) (buf : List (Nat × α)) (nr : Nat) (out : List α),
      buf.length ≤ fuel → nr ≤ d →
      ((flk ++ keys buf).Perm (List.range' nr (d - nr))) →
      (∀ p ∈ buf, p.2 = f p.1) →
      out = (List.range nr).map f →
      nr ≤ (releaseFuel fuel buf nr out).2.1 ∧
      (releaseFuel fuel buf nr out).2.1 ≤ d ∧
      ((flk ++ keys (releaseFuel fuel buf nr out).1).Perm
        (List.range' (releaseFuel fuel buf nr out).2.1
          (d - (releaseFuel fuel buf nr out).2.1))) ∧
      (∀ p ∈ (releaseFuel fuel buf nr out).1, p.2 = f p.1) ∧
      (releaseFuel fuel buf nr out).2.2 =
        (List.range (releaseFuel fuel buf nr out).2.1).map f ∧
      lookupKey (releaseFuel fuel buf nr out).2.1 (releaseFuel fuel buf nr out).1 =
        none := by
  intro fuel
  induction fuel with
  | zero =>
    intro buf nr out hfuel hnrd hperm hvals hout
    have hbuf : buf = [] := List.length_eq_zero.mp (Nat.le_zero.mp hfuel)
    subst hbuf
    exact ⟨le_refl _, hnrd, hperm, hvals, hout, rfl⟩
  | succ fuel ih =>
    intro buf nr out hfuel hnrd hperm hvals hout
    cases hl : lookupKey nr buf with
    | none =>
      have hr : releaseFuel (fuel + 1) buf nr out = (buf, nr, out) := by
        unfold releaseFuel
        rw [hl]
      rw [hr]
      exact ⟨le_refl _, hnrd, hperm, hvals, hout, hl⟩
    | some v =>
      have hr : releaseFuel (fuel + 1) buf nr out =
          releaseFuel fuel (eraseKey nr buf) (nr + 1) (out ++ [v]) := by
        conv_lhs => unfold releaseFuel
        rw [hl]
      have hmem := lookupKey_mem hl
      have hv : v = f nr := by
        have := hvals _ hmem
        simpa using this
      have hkperm := keys_eraseKey_perm hl
      have hnrmem : nr ∈ List.range' nr (d - nr) := by
        have h1 : nr ∈ flk ++ keys buf := List.mem_append.mpr (Or.inr (by
          unfold keys
          exact List.mem_map.mpr ⟨(nr, v), hmem, rfl⟩))
        exact hperm.mem_iff.mp h1
      have hnrlt : nr < d := by
        have := List.mem_range'_1.mp hnrmem
        omega
      have hlen2 : (eraseKey nr buf).length ≤ fuel := by
        have := length_eraseKey hl
        omega
      have hperm2 : ((flk ++ keys (eraseKey nr buf)).Perm
          (List.range' (nr + 1) (d - (nr + 1)))) := by
        have s1 : (flk ++ keys buf).Perm (flk ++ (nr :: keys (eraseKey nr buf))) :=
          List.Perm.append_left flk hkperm
        have s2 : (flk ++ (nr :: keys (eraseKey nr buf))).Perm
            (nr :: (flk ++ keys (eraseKey nr buf))) := List.perm_middle
        have s3 := ((s1.trans s2).symm.trans hperm)
        have hd1 : List.range' nr (d - nr) = nr :: List.range' (nr + 1) (d - (nr + 1)) := by
          rw [show d - nr = (d - (nr + 1)) + 1 from by omega, List.range'_succ]
        rw [hd1] at s3
        exact List.Perm.cons_inv s3
      have hvals2 : ∀ p ∈ eraseKey nr buf, p.2 = f p.1 :=
        fun p hp => hvals p (mem_eraseKey hp)
      have hout2 : out ++ [v] = (List.range (nr + 1)).map f := by
        rw [hout, hv, List.range_succ, List.map_append]
        rfl
      obtain ⟨c1, c2, c3, c4, c5, c6⟩ :=
        ih (eraseKey nr buf) (nr + 1) (out ++ [v]) hlen2 (by omega) hperm2 hvals2 hout2
      rw [hr]
      exact ⟨by omega, c2, c3, c4, c5, c6⟩

/-- The start state satisfies the invariant with an exhausted release loop. -/
lemma invR_init {α : Type} (limit k : Nat) (f : Nat → α) :
    FuturesOrdered.InvR k f (FuturesOrdered.init limit k f) := by
  constructor
  · refine ⟨0, le_refl 0, Nat.zero_le k, ?_, ?_, ?_, rfl⟩
    · show (List.range k).map (fun j => (j, f j)) =
        (List.range' 0 (k - 0)).map (fun j => (j, f j))
      rw [Nat.sub_zero, List.range_eq_range']
    · exact List.Perm.nil
    · intro p hp
      have hp0 : p ∈ ([] : List (Nat × α)) ++ ([] : List (Nat × α)) := hp
      simp at hp0
  · rfl

/-- One scheduler step preserves the invariant and re-establishes the release
loop's postcondition. -/
lemma invR_step {α : Type} {k : Nat} {f : Nat → α} {s : FuturesOrdered α}
    (h : FuturesOrdered.InvR k f s) (c : Nat) :
    FuturesOrdered.InvR k f (s.step c) := by
  obtain ⟨hinv, -⟩ := h
  obtain ⟨d, hnr, hdk, hpend, hperm, hvals, hrel⟩ := inv_complete (inv_admitAll hinv) c
  have hperm' : ((keys ((s.admitAll.complete c).inflight) ++
      keys ((s.admitAll.complete c).buffer)).Perm
      (List.range' (s.admitAll.complete c).nextRel (d - (s.admitAll.complete c).nextRel))) := by
    rw [← keys_append]
    exact hperm
  have hvalsb : ∀ p ∈ (s.admitAll.complete c).buffer, p.2 = f p.1 :=
    fun p hp => hvals p (List.mem_append.mpr (Or.inr hp))
  obtain ⟨c1, c2, c3, c4, c5, c6⟩ :=
    releaseFuel_spec f (keys ((s.admitAll.complete c).inflight)) d
      ((s.admitAll.complete c).buffer.length) ((s.admitAll.complete c).buffer)
      ((s.admitAll.complete c).nextRel) ((s.admitAll.complete c).released)
      (le_refl _) hnr hperm' hvalsb hrel
  constructor
  · refine ⟨d, c2, hdk, hpend, ?_, ?_, c5⟩
    · show (keys ((s.admitAll.complete c).inflight ++
        (releaseFuel ((s.admitAll.complete c).buffer.length)
          ((s.admitAll.complete c).buffer) ((s.admitAll.complete c).nextRel)
          ((s.admitAll.complete c).released)).1)).Perm _
      rw [keys_append]
      exact c3
    · intro p hp
      have hp0 : p ∈ (s.admitAll.complete c).inflight ++
          (releaseFuel ((s.admitAll.complete c).buffer.length)
            ((s.admitAll.complete c).buffer) ((s.admitAll.complete c).nextRel)
            ((s.admitAll.complete c).released)).1 := hp
      rcases List.mem_append.mp hp0 with hp1 | hp1
      · exact hvals p (List.mem_append.mpr (Or.inl hp1))
      · exact c4 p hp1
  · exact c6

/-- The invariant holds after any completion schedule. -/
lemma invR_run {α : Type} (limit k : Nat) (f : Nat → α) (sched : List Nat) :
    FuturesOrdered.InvR k f (FuturesOrdered.run limit k f sched) := by
  suffices h : ∀ (l : List Nat) (s : FuturesOrdered α), FuturesOrdered.InvR k f s →
      FuturesOrdered.InvR k f (l.foldl FuturesOrdered.step s) by
    exact h sched _ (invR_init limit k f)
  intro l
  induction l with
  | nil => intro s hs; exact hs
  | cons c rest ih =>
    intro s hs
    exact ih _ (invR_step hs c)

/-- C2: for every input sequence of `k` units with results `f 0, …, f (k-1)`
admitted in order into the ordered-mode Bounded Concurrency Pipeline, and for
every internal completion schedule that finishes all units, the released
output sequence equals the results in exact admission order. -/
theorem futuresOrdered_released_in_admission_order {α : Type} (limit k : Nat)
    (f : Nat → α) (sched : List Nat)
    (hp : (FuturesOrdered.run limit k f sched).pending = [])
    (hf : (FuturesOrdered.run limit k f sched).inflight = []) :
    (FuturesOrdered.run limit k f sched).released = (List.range k).map f := by
  obtain ⟨⟨d, hnr, hdk, hpend, hperm, hvals, hrel⟩, hlook⟩ := invR_run limit k f sched
  have hdk2 : d = k := by
    rw [hp] at hpend
    have h2 : List.range' d (k - d) = [] := List.map_eq_nil.mp hpend.symm
    have h3 : k - d = 0 := List.range'_eq_nil.mp h2
    omega
  have hnrk : (FuturesOrdered.run limit k f sched).nextRel = k := by
    rw [hf] at hperm
    by_contra hne
    have hlt : (FuturesOrdered.run limit k f sched).nextRel < k :=
      lt_of_le_of_ne (hdk2 ▸ hnr) hne
    have hmem : (FuturesOrdered.run limit k f sched).nextRel ∈
        List.range' (FuturesOrdered.run limit k f sched).nextRel
          (d - (FuturesOrdered.run limit k f sched).nextRel) := by
      rw [List.mem_range'_1]
      omega
    have hmem2 := hperm.mem_iff.mpr hmem
    rw [List.nil_append] at hmem2
    exact (lookupKey_eq_none_iff.mp hlook) hmem2
  rw [hrel, hnrk]

/-- C2 witness: four units under limit 2 with the out-of-order completion
schedule `[1, 0, 1, 0]` still release `f 0, f 1, f 2, f 3` in admission
order. -/
theorem futuresOrdered_released_in_admission_order_witness :
    (FuturesOrdered.run 2 4 (fun j => j * 10) [1, 0, 1, 0]).released =
      (List.range 4).map (fun j => j * 10) :=
  futuresOrdered_released_in_admission_order 2 4 (fun j => j * 10) [1, 0, 1, 0]
    (by decide) (by decide)

end FuturesRs
